import Mathlib

/-!
Column fillers and key derivation of the perspective FFI layer

A shallow embedding of `rust/perspective/crates/ffi/cpp/ffi.cpp`.

* Raw buffers (`const char*`, `const std::int32_t*`, ...) are finite lists; a read or
  write outside a buffer is undefined behaviour in C++ and is `none` here.
* `for (i = 0; i < n; ++i)` is `forLoop`, which threads the state through the bodies
  `0, 1, ..., n - 1` and stops at the first failing one.
* Machine integers are `Nat` / `Int` with explicit reduction where the width matters
  (`wrap32` for `int` arithmetic, `% 2 ^ 64` for `std::size_t` / `t_uindex`).
* A `Column α` is the storage of a column viewed at element type `α`, the `T` of
  `get_nth<T>` / `set_nth<T>`: index `idx` of `data` is the `idx`-th `T`.
-/

namespace ffi

/-! ## Generic machinery -/

/-- The loop `for (i = 0; i < n; ++i) body(i)` over a state, failing as soon as one
body fails. -/
def forLoop {σ : Type} (body : Nat → σ → Option σ) : Nat → σ → Option σ
  | 0, s => some s
  | n + 1, s => (forLoop body n s).bind (body n)

/-- Store through a pointer: `buf[i] = v`, undefined outside the buffer. -/
def write {α : Type} (buf : List α) (i : Nat) (v : α) : Option (List α) :=
  if i < buf.length then some (buf.set i v) else none

/-- The call `std::memcpy(dst + off, src, n)`: the first `n` elements of `src` replace
the `n` elements of `dst` from `off` on. -/
def memcpy {α : Type} (dst : List α) (off : Nat) (src : List α) (n : Nat) :
    Option (List α) :=
  if n ≤ src.length ∧ off + n ≤ dst.length then
    some (dst.take off ++ src.take n ++ dst.drop (off + n))
  else none

/-- The call `std::memset(dst + off, v, n)`. -/
def memset {α : Type} (dst : List α) (off : Nat) (v : α) (n : Nat) : Option (List α) :=
  if off + n ≤ dst.length then
    some (dst.take off ++ List.replicate n v ++ dst.drop (off + n))
  else none

/-! ## Data model -/

/-- Modelled from the spec: `perspective::t_status`, the per-cell validity status
(declared in `perspective/raw_types.h`, not part of the sources at hand). -/
inductive t_status where
  | STATUS_INVALID
  | STATUS_VALID
  | STATUS_CLEAR
  deriving DecidableEq, Repr

/-- Modelled from the spec: `perspective::t_column`, "a typed sequence of cell values
plus a parallel per-cell validity status", with the vocabulary of a dictionary column.
`data` is the storage viewed at element type `α`; `status` has one entry per row;
`vocab` lists the interned strings, the code of a string being its position. -/
structure Column (α : Type) where
  data : List α
  status : List t_status
  vocab : List (List Char)
  deriving DecidableEq, Repr

/-- Modelled from the spec: `t_column::get_nth<T>(idx)`, the accessor of the "typed
sequence of cell values". It is the one `get_col_nth_u32`, `get_col_nth_i64`, ...
(lines 31-59) dereference for element `idx` of type `T`, and `get_col_raw_data`
(lines 72-75) calls as `get_nth<char>(0)` for the base of the raw storage: a `T*` to
element `idx`, that is the base advanced by `idx * sizeof(T)` bytes. -/
def get_nth_offset (sizeofT idx : Nat) : Nat := idx * sizeofT

/-- The `sizeofT`-byte cell of row `idx` in a column whose storage is viewed as bytes:
the bytes `get_nth<T>(idx)` points to. -/
def get_nth_bytes (col : Column Nat) (sizeofT idx : Nat) : List Nat :=
  (col.data.drop (get_nth_offset sizeofT idx)).take sizeofT

/-- Modelled from the spec: `t_column::set_nth<T>(idx, v)`, which stores `v` in cell
`idx` and marks the cell valid. -/
def Column.set_nth {α : Type} (col : Column α) (idx : Nat) (v : α) : Option (Column α) :=
  match write col.data idx v, write col.status idx t_status.STATUS_VALID with
  | some d, some s => some ⟨d, s, col.vocab⟩
  | _, _ => none

/-! ## Null bitmap -/

/-- The table `NULLMASK` of `ffi.cpp`. -/
def NULLMASK : List Nat :=
  [1, 1 <<< 1, 1 <<< 2, 1 <<< 3, 1 <<< 4, 1 <<< 5, 1 <<< 6, 1 <<< 7]

/-- The function `is_not_null(nullmask, idx)`:
`(nullmask[idx >> 3] & NULLMASK[idx & 7]) != 0`. -/
def is_not_null (nullmask : List Nat) (idx : Nat) : Option Bool :=
  match nullmask[idx >>> 3]?, NULLMASK[idx &&& 7]? with
  | some b, some m => some ((b &&& m) != 0)
  | _, _ => none

/-- The test `has_nulls && !is_not_null(nullmask, i)` of the typed fillers: `true` when
row `i` is skipped. Without a bitmap nothing is read. -/
def is_skipped (nullmask : Option (List Nat)) (i : Nat) : Option Bool :=
  match nullmask with
  | none => some false
  | some nm => (is_not_null nm i).map (fun b => !b)

/-! ## Bulk raw filler -/

/-- The status loop of `fill_column_memcpy` (lines 117-123), one iteration. -/
def fill_status_body (nm : List Nat) (start : Nat) (i : Nat) (status : List t_status) :
    Option (List t_status) :=
  match is_not_null nm i with
  | some true => write status (start + i) t_status.STATUS_VALID
  | some false => write status (start + i) t_status.STATUS_INVALID
  | none => none

/-- The function `fill_column_memcpy(col, ptr, nullmask, start, len, size)`. The column
is viewed as bytes: the destination of the copy is `col->get_nth<char>(start)`, while
the status pointer is `col->get_nth_status(start)`. -/
def fill_column_memcpy (col : Column Nat) (ptr : List Nat) (nullmask : Option (List Nat))
    (start len size : Nat) : Option (Column Nat) :=
  match memcpy col.data (get_nth_offset 1 start) ptr ((len * size) % 2 ^ 64) with
  | none => none
  | some data =>
    match nullmask with
    | none =>
      (memset col.status start t_status.STATUS_VALID len).map
        (fun status => ⟨data, status, col.vocab⟩)
    | some nm =>
      (forLoop (fill_status_body nm start) len col.status).map
        (fun status => ⟨data, status, col.vocab⟩)

/-- The validity the null-bitmap convention gives row `i`: bit `i & 7` (from the least
significant) of byte `i >> 3`; every row is valid without a bitmap. -/
def bitmap_valid (nullmask : Option (List Nat)) (i : Nat) : Bool :=
  match nullmask with
  | none => true
  | some nm => (nm.getD (i >>> 3) 0).testBit (i &&& 7)

/-! ## Machine integers -/

/-- The value of an `int` (32-bit, two's complement) expression whose exact result
is `x`. -/
def wrap32 (x : Int) : Int := (x + 2 ^ 31) % 2 ^ 32 - 2 ^ 31

/-- Conversion of a signed integer to `std::size_t` / `perspective::t_uindex`
(64-bit, unsigned). -/
def to_u64 (x : Int) : Nat := (x % 2 ^ 64).toNat

/-! ## Temporal decoders -/

/-- Modelled from the spec: `perspective::t_time`, whose constructor
`t_time(std::int64_t)` keeps the raw integer as the time value. -/
structure t_time where
  raw : Int
  deriving DecidableEq, Repr

/-- Modelled from the spec: `perspective::t_date`, built by
`t_date(year, month, day)` from a calendar triple. -/
structure t_date where
  year : Int
  month : Int
  day : Int
  deriving DecidableEq, Repr

/-- The fields of `std::tm` that `fill_column_date` reads: `tm_year` counts years since
1900, `tm_mon` counts months since January (0 to 11), `tm_mday` is the day of the month
(1 to 31). -/
structure tm where
  tm_year : Int
  tm_mon : Int
  tm_mday : Int
  deriving DecidableEq, Repr

/-- Proleptic Gregorian (year, month, day), month and day counted from 1, of the day
`z` days after 1970-01-01. -/
def civil_from_days (z : Int) : Int × Int × Int :=
  let z := z + 719468
  let era := z / 146097
  let doe := z - era * 146097
  let yoe := (doe - doe / 1460 + doe / 36524 - doe / 146096) / 365
  let doy := doe - (365 * yoe + yoe / 4 - yoe / 100)
  let mp := (5 * doy + 2) / 153
  let d := doy - (153 * mp + 2) / 5 + 1
  let m := if mp < 10 then mp + 3 else mp - 9
  (if m ≤ 2 then yoe + era * 400 + 1 else yoe + era * 400, m, d)

/-- The C library call `std::localtime` of a process whose time zone is UTC. -/
def localtime_utc (time : Int) : tm :=
  let ymd := civil_from_days (time / 86400)
  ⟨ymd.1 - 1900, ymd.2.1 - 1, ymd.2.2⟩

/-- Ticks per second of `std::chrono::system_clock` (nanoseconds). -/
def system_clock_period : Int := 1000000000

/-- The call `std::chrono::system_clock::from_time_t`. -/
def from_time_t (t : Int) : Int := t * system_clock_period

/-- The call `std::chrono::system_clock::to_time_t`. -/
def to_time_t (tp : Int) : Int := Int.tdiv tp system_clock_period

/-- The expression `ptr[i] * 24 * 60 * 60` of `fill_column_date`: `ptr[i]` is an
`std::int32_t` and the literals are `int`, so each product is an `int`. -/
def days_to_seconds (d : Int) : Int := wrap32 (wrap32 (wrap32 (d * 24) * 60) * 60)

/-- One iteration of the loop of `fill_column_date` (lines 131-145); `localtime` is the
clock conversion of the executing process. -/
def fill_date_body (localtime : Int → tm) (ptr : List Int) (nullmask : Option (List Nat))
    (start : Nat) (i : Nat) (col : Column t_date) : Option (Column t_date) :=
  match is_skipped nullmask i with
  | none => none
  | some true => some col
  | some false =>
    match ptr[i]? with
    | none => none
    | some d =>
      let tp := from_time_t (days_to_seconds d)
      let time := to_time_t tp
      let date := localtime time
      col.set_nth ((start + i) % 2 ^ 64) ⟨date.tm_year, date.tm_mon, date.tm_mday⟩

/-- The function `fill_column_date(col, ptr, nullmask, start, len)`. -/
def fill_column_date (localtime : Int → tm) (col : Column t_date) (ptr : List Int)
    (nullmask : Option (List Nat)) (start len : Nat) : Option (Column t_date) :=
  forLoop (fill_date_body localtime ptr nullmask start) len col

/-- One iteration of the loop of `fill_column_time` (lines 153-161). -/
def fill_time_body (ptr : List Int) (nullmask : Option (List Nat)) (start : Nat) (i : Nat)
    (col : Column t_time) : Option (Column t_time) :=
  match is_skipped nullmask i with
  | none => none
  | some true => some col
  | some false =>
    match ptr[i]? with
    | none => none
    | some v => col.set_nth ((start + i) % 2 ^ 64) ⟨v⟩

/-- The function `fill_column_time(col, ptr, nullmask, start, len)`. -/
def fill_column_time (col : Column t_time) (ptr : List Int) (nullmask : Option (List Nat))
    (start len : Nat) : Option (Column t_time) :=
  forLoop (fill_time_body ptr nullmask start) len col

/-! ## Dictionary filler -/

/-- Position of the first occurrence of `s` in `l`, counted from 0; the length of `l`
when `s` does not occur. In a vocabulary this is the code of `s`. -/
def first_index (l : List (List Char)) (s : List Char) : Nat :=
  @List.indexOf (List Char) instBEqOfDecidableEq s l

/-- Modelled from the spec: `t_vocab::get_interned(s)`: "re-interning an already-known
string returns its existing code, but first-seen strings receive the next sequential
code". Returns the vocabulary after the call and the code. -/
def get_interned (vocab : List (List Char)) (s : List Char) : List (List Char) × Nat :=
  if s ∈ vocab then (vocab, first_index vocab s) else (vocab ++ [s], vocab.length)

/-- Modelled from the spec: `t_vocab::get_vlenidx()`, the number of interned strings. -/
def get_vlenidx (vocab : List (List Char)) : Nat := vocab.length

/-- Modelled from the spec: `t_vocab::unintern_c(i)`, the string of code `i` as a C
string; what a reader of the `const char*` sees ends before the first NUL. A C++ `char`
is a Lean `Char` here, so the UTF-8 check of `rust::String` has nothing to reject. -/
def unintern_c (vocab : List (List Char)) (i : Nat) : Option (List Char) :=
  (vocab[i]?).map (fun s => s.takeWhile (fun c => c != Char.ofNat 0))

/-- The function `get_col_vocab_strings(col)`: the strings of codes
`0, ..., get_vlenidx() - 1`. -/
def get_col_vocab_strings {α : Type} (col : Column α) : Option (List String) :=
  forLoop (fun i strings => (unintern_c col.vocab i).map (fun s => strings ++ [String.mk s]))
    (get_vlenidx col.vocab) []

/-- The call `s.assign(dict + off, n)`: the `n` chars of the blob from `off` on. -/
def assign_substr (dict : List Char) (off : Int) (n : Nat) : Option (List Char) :=
  if 0 ≤ off ∧ off.toNat + n ≤ dict.length then some ((dict.drop off.toNat).take n)
  else none

/-- The bound `offsets.size() - 1` of the intern loop, computed in `std::size_t`. -/
def intern_loop_bound (offsets : List Int) : Nat := (offsets.length + 2 ^ 64 - 1) % 2 ^ 64

/-- One iteration of the intern loop of `fill_column_dict` (lines 171-175), on the
vocabulary of the column. -/
def intern_body (dict : List Char) (offsets : List Int) (i : Nat)
    (vocab : List (List Char)) : Option (List (List Char)) :=
  match offsets[i + 1]?, offsets[i]? with
  | some o1, some o0 =>
    let es := to_u64 (wrap32 (o1 - o0))
    match assign_substr dict o0 es with
    | some s => some (get_interned vocab s).1
    | none => none
  | _, _ => none

/-- The intern pass of `fill_column_dict` (lines 169-175). -/
def fill_column_dict_intern {α : Type} (col : Column α) (dict : List Char)
    (offsets : List Int) : Option (Column α) :=
  (forLoop (intern_body dict offsets) (intern_loop_bound offsets) col.vocab).map
    (fun vocab => ⟨col.data, col.status, vocab⟩)

/-- One iteration of the assign loop of `fill_column_dict` (lines 183-190); the
`std::int32_t` code is converted to `perspective::t_uindex` by `set_nth`. -/
def assign_body (ptr : List Int) (nullmask : Option (List Nat)) (start : Nat) (i : Nat)
    (col : Column Nat) : Option (Column Nat) :=
  match is_skipped nullmask i with
  | none => none
  | some true => some col
  | some false =>
    match ptr[i]? with
    | none => none
    | some code => col.set_nth ((start + i) % 2 ^ 64) (to_u64 code)

/-- The assign pass of `fill_column_dict` (lines 182-190). -/
def fill_column_dict_assign (col : Column Nat) (ptr : List Int)
    (nullmask : Option (List Nat)) (start len : Nat) : Option (Column Nat) :=
  forLoop (assign_body ptr nullmask start) len col

/-- The function `fill_column_dict(col, dict, offsets, ptr, nullmask, start, len)`. -/
def fill_column_dict (col : Column Nat) (dict : List Char) (offsets : List Int)
    (ptr : List Int) (nullmask : Option (List Nat)) (start len : Nat) :
    Option (Column Nat) :=
  (fill_column_dict_intern col dict offsets).bind
    (fun col1 => fill_column_dict_assign col1 ptr nullmask start len)

/-- The strings an offsets array delimits in a blob: `offsets[i]..offsets[i+1]` is the
`i`-th string. -/
def delimited (dict : List Char) (offsets : List Int) : List (List Char) :=
  List.zipWith (fun a b => (dict.drop a.toNat).take (b - a).toNat) offsets offsets.tail

/-! ## Table assembly -/

/-- Modelled from the spec: `perspective::t_dtype`, the storage types the spec lists
(integer widths, floats, boolean, string, date, time); the enumeration itself is
declared outside the sources at hand. -/
inductive t_dtype where
  | DTYPE_INT64
  | DTYPE_INT32
  | DTYPE_FLOAT64
  | DTYPE_FLOAT32
  | DTYPE_BOOL
  | DTYPE_STR
  | DTYPE_DATE
  | DTYPE_TIME
  deriving DecidableEq, Repr

/-- Modelled from the spec: `perspective::t_schema`, "an ordered list of (column name,
Dtype) pairs", kept as the two parallel lists `columns()` and `types()` return. -/
structure t_schema where
  columns : List String
  types : List t_dtype
  deriving DecidableEq, Repr

/-- Modelled from the spec: `t_schema::has_column(name)`. -/
def t_schema.has_column (schema : t_schema) (name : String) : Bool :=
  schema.columns.any (fun c => c == name)

/-- Modelled from the spec: `perspective::t_data_table`, a column set: the named, typed
columns in schema order and the row count. Cells are viewed at one element type `α`. -/
structure t_data_table (α : Type) where
  columns : List (String × t_dtype × Column α)
  size : Nat
  deriving DecidableEq, Repr

/-- Modelled from the spec: `t_data_table::get_schema()`. -/
def t_data_table.get_schema {α : Type} (dt : t_data_table α) : t_schema :=
  ⟨dt.columns.map (fun e => e.1), dt.columns.map (fun e => e.2.1)⟩

/-- Modelled from the spec: `t_data_table::get_column(name)`; there is no column to
return for an unknown name. -/
def t_data_table.get_column {α : Type} (dt : t_data_table α) (name : String) :
    Option (Column α) :=
  (dt.columns.find? (fun e => e.1 == name)).map (fun e => e.2.2)

/-- Modelled from the spec: `t_data_table::num_rows()`, the row count. -/
def t_data_table.num_rows {α : Type} (dt : t_data_table α) : Nat := dt.size

/-- Modelled from the spec: `t_data_table::add_column_sptr(name, dtype, true)`: a new
status-enabled column of `size()` rows is appended to the set ("rows exist but are not
yet validity-marked"); returns the table and the new column. -/
def t_data_table.add_column_sptr {α : Type} [NatCast α] (dt : t_data_table α)
    (name : String) (dtype : t_dtype) : t_data_table α × Column α :=
  let col : Column α :=
    ⟨List.replicate dt.size ((0 : Nat) : α), List.replicate dt.size t_status.STATUS_INVALID, []⟩
  (⟨dt.columns ++ [(name, dtype, col)], dt.size⟩, col)

/-- The effect on the table of writes made through the `shared_ptr` of one of its
columns: the column of that name now has the written contents. -/
def t_data_table.store_column {α : Type} (dt : t_data_table α) (name : String)
    (col : Column α) : t_data_table α :=
  ⟨dt.columns.map (fun e => if e.1 == name then (e.1, e.2.1, col) else e), dt.size⟩

/-- Modelled from the spec: `t_data_table::clone_column(existing, new_name)`: a copy of
the existing column is appended under the new name; nothing happens when the existing
column is unknown. -/
def t_data_table.clone_column {α : Type} (dt : t_data_table α) (existing new_name : String) :
    t_data_table α :=
  match dt.columns.find? (fun e => e.1 == existing) with
  | none => dt
  | some e => ⟨dt.columns ++ [(new_name, e.2.1, e.2.2)], dt.size⟩

/-- Modelled from the spec: `perspective::Table` after `Table::init`: the schema and row
limit given to its constructor, the index column name, and the column set handed to
`init`. The processing node is outside this layer. -/
structure Table (α : Type) where
  columns : List String
  dtypes : List t_dtype
  limit : Nat
  index : String
  data : t_data_table α
  deriving DecidableEq, Repr

/-- Lines 284-293 of `mk_table_from_data_table`: take the `psp_pkey` column of the set,
or add one and fill it with `pkey->set_nth<std::uint64_t>(i, i)` for `i < size()`. -/
def derive_pkey {α : Type} [NatCast α] (dt : t_data_table α) : Option (t_data_table α) :=
  if dt.get_schema.has_column "psp_pkey" then
    (dt.get_column "psp_pkey").map (fun _ => dt)
  else
    let added := dt.add_column_sptr "psp_pkey" t_dtype.DTYPE_INT64
    (forLoop (fun i pkey => pkey.set_nth i ((i : Nat) : α)) added.1.size added.2).map
      (fun pkey => added.1.store_column "psp_pkey" pkey)

/-- Lines 294-296 of `mk_table_from_data_table`; `schema` is the copy of the schema taken
on entry (line 283). -/
def derive_okey {α : Type} (schema : t_schema) (dt : t_data_table α) : t_data_table α :=
  if !schema.has_column "psp_okey" then dt.clone_column "psp_pkey" "psp_okey" else dt

/-- The function `mk_table_from_data_table(data_table, index)`. -/
def mk_table_from_data_table {α : Type} [NatCast α] (dt : t_data_table α) (index : String) :
    Option (Table α) :=
  let schema := dt.get_schema
  (derive_pkey dt).map (fun dt1 =>
    let dt2 := derive_okey schema dt1
    ⟨dt2.get_schema.columns, dt2.get_schema.types, dt2.num_rows, index, dt2⟩)

/-- The vocabulary after interning the given strings in order, starting from `vocab`. -/
def intern_all (vocab : List (List Char)) (strings : List (List Char)) :
    List (List Char) :=
  strings.foldl (fun v s => (get_interned v s).1) vocab

/-- The shape shared by the loop bodies of the typed fillers, used to state their
common invariant: fail on a failed read, leave the column alone on a skipped row, and
otherwise `set_nth` the value read. -/
def skip_or_set {α : Type} (skip : Option Bool) (v : Option α) (idx : Nat)
    (c : Column α) : Option (Column α) :=
  match skip with
  | none => none
  | some true => some c
  | some false =>
    match v with
    | none => none
    | some v => c.set_nth idx v

/-! ## Lemmas on the machinery -/

/-- The loop `forLoop` runs the bodies `0, 1, ..., n - 1` in this order. -/
theorem forLoop_eq_foldlM {σ : Type} (body : Nat → σ → Option σ) (n : Nat) (s : σ) :
    forLoop body n s = (List.range n).foldlM (fun st i => body i st) s := by
  induction n with
  | zero => rfl
  | succ n ih =>
    have hstep : forLoop body (n + 1) s = (forLoop body n s).bind (body n) := rfl
    rw [hstep, List.range_succ, List.foldlM_append, ← ih]
    cases forLoop body n s with
    | none => rfl
    | some a => simp

theorem NULLMASK_get (i : Nat) : NULLMASK[i &&& 7]? = some (2 ^ (i &&& 7)) := by
  have h : i &&& 7 = i % 8 := Nat.and_pow_two_sub_one_eq_mod i 3
  rw [h]
  have h8 : i % 8 < 8 := Nat.mod_lt _ (by decide)
  interval_cases (i % 8) <;> rfl

theorem and_two_pow_ne_zero (b k : Nat) : ((b &&& 2 ^ k) != 0) = b.testBit k := by
  rw [Nat.and_two_pow]
  cases b.testBit k <;> simp

theorem is_not_null_eq (nm : List Nat) (i : Nat) (h : i >>> 3 < nm.length) :
    is_not_null nm i = some ((nm.getD (i >>> 3) 0).testBit (i &&& 7)) := by
  unfold is_not_null
  rw [NULLMASK_get, List.getElem?_eq_getElem h]
  simp only [and_two_pow_ne_zero]
  rw [List.getD_eq_getElem _ _ h]

theorem shiftRight_three_lt (i len n : Nat) (hi : i < len) (hn : len ≤ 8 * n) :
    i >>> 3 < n := by
  rw [Nat.shiftRight_eq_div_pow]
  have : i / 8 < n := by omega
  simpa using this

theorem write_eq_some {α : Type} (buf : List α) (i : Nat) (v : α) (h : i < buf.length) :
    write buf i v = some (buf.set i v) := by
  simp [write, h]

/-- Status of a row after the status loop of `fill_column_memcpy` ran `n` times. -/
theorem fill_status_loop (nm : List Nat) (start len : Nat) (status : List t_status)
    (hst : start + len ≤ status.length) (hnm : len ≤ 8 * nm.length) :
    ∀ n, n ≤ len → ∃ st, forLoop (fill_status_body nm start) n status = some st ∧
      st.length = status.length ∧
      ∀ j, st[j]? = if start ≤ j ∧ j < start + n then
          some (if (nm.getD ((j - start) >>> 3) 0).testBit ((j - start) &&& 7)
            then t_status.STATUS_VALID else t_status.STATUS_INVALID)
        else status[j]? := by
  intro n
  induction n with
  | zero =>
    intro _
    refine ⟨status, rfl, rfl, ?_⟩
    intro j
    have : ¬ (start ≤ j ∧ j < start + 0) := by omega
    rw [if_neg this]
  | succ n ih =>
    intro hn
    obtain ⟨st, hrun, hlen, hget⟩ := ih (by omega)
    have hbit := is_not_null_eq nm n (shiftRight_three_lt n len nm.length (by omega) hnm)
    have hin : start + n < st.length := by omega
    refine ⟨st.set (start + n) (if (nm.getD (n >>> 3) 0).testBit (n &&& 7)
        then t_status.STATUS_VALID else t_status.STATUS_INVALID), ?_, ?_, ?_⟩
    · simp only [forLoop, hrun, Option.bind_some, fill_status_body, hbit]
      cases (nm.getD (n >>> 3) 0).testBit (n &&& 7) <;> simp [write_eq_some _ _ _ hin]
    · simp [hlen]
    · intro j
      rw [List.getElem?_set]
      by_cases hj : start + n = j
      · subst hj
        simp [hin]
      · rw [if_neg hj, hget j]
        by_cases h1 : start ≤ j ∧ j < start + n
        · have h2 : start ≤ j ∧ j < start + (n + 1) := by omega
          rw [if_pos h1, if_pos h2]
        · have h2 : ¬ (start ≤ j ∧ j < start + (n + 1)) := by omega
          rw [if_neg h1, if_neg h2]

theorem memset_get {α : Type} (dst : List α) (off n : Nat) (v : α)
    (h : off + n ≤ dst.length) (i : Nat) (hi : i < n) :
    ∃ st, memset dst off v n = some st ∧ st[off + i]? = some v := by
  refine ⟨dst.take off ++ List.replicate n v ++ dst.drop (off + n), by simp [memset, h], ?_⟩
  have hlen : (dst.take off).length = off := by simp; omega
  rw [List.append_assoc, List.getElem?_append_right (by omega)]
  rw [List.getElem?_append_left (by simp; omega)]
  rw [List.getElem?_replicate, if_pos (by omega)]

/-- Claim C1. After `fill_column_memcpy` on in-range buffers, the status of cell
`start + i`, for every `i < len`, is VALID when no bitmap was supplied or when bit
`i & 7` (from the least significant) of bitmap byte `i >> 3` is 1, and INVALID when a
bitmap was supplied and that bit is 0. -/
theorem fill_column_memcpy_status (col : Column Nat) (ptr : List Nat)
    (nullmask : Option (List Nat)) (start len size : Nat)
    (hsrc : (len * size) % 2 ^ 64 ≤ ptr.length)
    (hdst : start + (len * size) % 2 ^ 64 ≤ col.data.length)
    (hst : start + len ≤ col.status.length)
    (hnm : ∀ nm, nullmask = some nm → len ≤ 8 * nm.length) :
    ∃ col', fill_column_memcpy col ptr nullmask start len size = some col' ∧
      ∀ i, i < len → col'.status[start + i]? =
        some (if bitmap_valid nullmask i then t_status.STATUS_VALID
          else t_status.STATUS_INVALID) := by
  have hcopy : ∃ data, memcpy col.data (get_nth_offset 1 start) ptr
      ((len * size) % 2 ^ 64) = some data := by
    refine ⟨col.data.take start ++ ptr.take ((len * size) % 2 ^ 64)
      ++ col.data.drop (start + (len * size) % 2 ^ 64), ?_⟩
    simp only [memcpy, get_nth_offset, Nat.mul_one]
    rw [if_pos ⟨hsrc, hdst⟩]
  obtain ⟨data, hdata⟩ := hcopy
  cases nullmask with
  | none =>
    have hms : memset col.status start t_status.STATUS_VALID len
        = some (col.status.take start ++ List.replicate len t_status.STATUS_VALID
            ++ col.status.drop (start + len)) := by
      simp [memset, hst]
    refine ⟨⟨data, col.status.take start ++ List.replicate len t_status.STATUS_VALID
        ++ col.status.drop (start + len), col.vocab⟩, ?_, ?_⟩
    · simp only [fill_column_memcpy, hdata, hms, Option.map_some']
    · intro i hi
      obtain ⟨st, h1, h2⟩ := memset_get col.status start len t_status.STATUS_VALID hst i hi
      rw [hms] at h1
      cases h1
      simpa [bitmap_valid] using h2
  | some nm =>
    obtain ⟨st, hrun, _, hget⟩ :=
      fill_status_loop nm start len col.status hst (hnm nm rfl) len (Nat.le_refl _)
    refine ⟨⟨data, st, col.vocab⟩, ?_, ?_⟩
    · simp only [fill_column_memcpy, hdata, hrun, Option.map_some']
    · intro i hi
      have h1 : start ≤ start + i ∧ start + i < start + len := by omega
      simp only [hget (start + i), if_pos h1, Nat.add_sub_cancel_left, bitmap_valid]

/-- Instance of C1: two rows with bitmap byte `0b01`, so row 0 is valid and row 1 is
invalid. -/
theorem fill_column_memcpy_status_witness :
    ∃ col', fill_column_memcpy ⟨[0, 0, 0, 0], [t_status.STATUS_CLEAR, t_status.STATUS_CLEAR,
        t_status.STATUS_CLEAR], []⟩ [7, 9] (some [1]) 1 2 1 = some col' ∧
      ∀ i, i < 2 → col'.status[1 + i]? =
        some (if bitmap_valid (some [1]) i then t_status.STATUS_VALID
          else t_status.STATUS_INVALID) :=
  fill_column_memcpy_status ⟨[0, 0, 0, 0], [t_status.STATUS_CLEAR, t_status.STATUS_CLEAR,
        t_status.STATUS_CLEAR], []⟩ [7, 9] (some [1]) 1 2 1 (by decide) (by decide)
    (by decide) (by intro nm h; cases h; decide)

theorem is_skipped_eq (nullmask : Option (List Nat)) (i len : Nat) (hi : i < len)
    (hnm : ∀ nm, nullmask = some nm → len ≤ 8 * nm.length) :
    is_skipped nullmask i = some (!bitmap_valid nullmask i) := by
  cases nullmask with
  | none => rfl
  | some nm =>
    have h := is_not_null_eq nm i (shiftRight_three_lt i len nm.length hi (hnm nm rfl))
    simp [is_skipped, bitmap_valid, h]

theorem set_nth_eq_some {α : Type} (col : Column α) (idx : Nat) (v : α)
    (hd : idx < col.data.length) (hs : idx < col.status.length) :
    col.set_nth idx v =
      some ⟨col.data.set idx v, col.status.set idx t_status.STATUS_VALID, col.vocab⟩ := by
  simp [Column.set_nth, write, hd, hs]

/-- State of a column after `n` iterations of a typed filler loop: a loop whose body
skips the rows the bitmap marks invalid and calls `set_nth` on the others. -/
theorem typed_fill_loop {α : Type} (body : Nat → Column α → Option (Column α))
    (val : Nat → Option α) (nullmask : Option (List Nat)) (start len : Nat) (col : Column α)
    (hbody : ∀ i c, body i c =
      skip_or_set (is_skipped nullmask i) (val i) ((start + i) % 2 ^ 64) c)
    (hdata : start + len ≤ col.data.length) (hstat : start + len ≤ col.status.length)
    (hidx : start + len ≤ 2 ^ 64) (hnm : ∀ nm, nullmask = some nm → len ≤ 8 * nm.length)
    (hval : ∀ i, i < len → ∃ v, val i = some v) :
    ∀ n, n ≤ len → ∃ col', forLoop body n col = some col' ∧ col'.vocab = col.vocab ∧
      col'.data.length = col.data.length ∧ col'.status.length = col.status.length ∧
      ∀ j, (col'.data[j]? =
          if start ≤ j ∧ j < start + n ∧ bitmap_valid nullmask (j - start) = true
          then val (j - start) else col.data[j]?) ∧
        (col'.status[j]? =
          if start ≤ j ∧ j < start + n ∧ bitmap_valid nullmask (j - start) = true
          then some t_status.STATUS_VALID else col.status[j]?) := by
  intro n
  induction n with
  | zero =>
    intro _
    refine ⟨col, rfl, rfl, rfl, rfl, ?_⟩
    intro j
    have : ¬ (start ≤ j ∧ j < start + 0 ∧ bitmap_valid nullmask (j - start) = true) := by
      omega
    rw [if_neg this, if_neg this]
    exact ⟨rfl, rfl⟩
  | succ n ih =>
    intro hn
    obtain ⟨c, hrun, hvoc, hdl, hsl, hget⟩ := ih (by omega)
    have hskip := is_skipped_eq nullmask n len (by omega) hnm
    have hmod : (start + n) % 2 ^ 64 = start + n := Nat.mod_eq_of_lt (by omega)
    cases hbv : bitmap_valid nullmask n with
    | false =>
      refine ⟨c, ?_, hvoc, hdl, hsl, ?_⟩
      · simp only [forLoop, hrun, Option.some_bind, hbody, hskip, hbv, Bool.not_false,
          skip_or_set]
      · intro j
        have hiff : (start ≤ j ∧ j < start + (n + 1) ∧
              bitmap_valid nullmask (j - start) = true) ↔
            (start ≤ j ∧ j < start + n ∧ bitmap_valid nullmask (j - start) = true) := by
          constructor
          · rintro ⟨h1, h2, h3⟩
            refine ⟨h1, ?_, h3⟩
            by_contra hge
            have hj : j - start = n := by omega
            rw [hj, hbv] at h3
            exact Bool.false_ne_true h3
          · rintro ⟨h1, h2, h3⟩
            exact ⟨h1, by omega, h3⟩
        simp only [hiff]
        exact hget j
    | true =>
      obtain ⟨v, hv⟩ := hval n (by omega)
      have hstep := set_nth_eq_some c (start + n) v (by omega) (by omega)
      refine ⟨⟨c.data.set (start + n) v,
        c.status.set (start + n) t_status.STATUS_VALID, c.vocab⟩, ?_, ?_, ?_, ?_, ?_⟩
      · simp only [forLoop, hrun, Option.some_bind, hbody, hskip, hbv, Bool.not_true, hv,
          hmod, skip_or_set]
        exact hstep
      · exact hvoc
      · simp [hdl]
      · simp [hsl]
      · intro j
        simp only [List.getElem?_set]
        by_cases hj : start + n = j
        · subst hj
          have hc : start ≤ start + n ∧ start + n < start + (n + 1) ∧
              bitmap_valid nullmask (start + n - start) = true := by
            refine ⟨by omega, by omega, ?_⟩
            rw [Nat.add_sub_cancel_left]
            exact hbv
          rw [if_pos hc, if_pos hc]
          simp only [if_true, Nat.add_sub_cancel_left, hv]
          have h1 : start + n < c.data.length := by omega
          have h2 : start + n < c.status.length := by omega
          simp [h1, h2]
        · simp only [if_neg hj]
          have hiff : (start ≤ j ∧ j < start + (n + 1) ∧
                bitmap_valid nullmask (j - start) = true) ↔
              (start ≤ j ∧ j < start + n ∧ bitmap_valid nullmask (j - start) = true) := by
            constructor
            · rintro ⟨h1, h2, h3⟩
              exact ⟨h1, by omega, h3⟩
            · rintro ⟨h1, h2, h3⟩
              exact ⟨h1, by omega, h3⟩
          simp only [hiff]
          exact hget j

theorem to_u64_of_nonneg (c : Int) (h0 : 0 ≤ c) (h1 : c < 2 ^ 31) :
    ((to_u64 c : Nat) : Int) = c := by
  unfold to_u64
  have h : c % 2 ^ 64 = c := Int.emod_eq_of_lt h0 (by omega)
  rw [h]
  exact Int.toNat_of_nonneg h0

/-- Claim C8. After `fill_column_time` on in-range buffers, every row `i < len` that is
valid (no bitmap, or bit `i` set) has cell `start + i` holding the raw input integer
`ptr[i]` as its time value, and every row the bitmap marks invalid keeps the value and
the validity status the cell had before the call. -/
theorem fill_column_time_rows (col : Column t_time) (ptr : List Int)
    (nullmask : Option (List Nat)) (start len : Nat)
    (hdata : start + len ≤ col.data.length) (hstat : start + len ≤ col.status.length)
    (hidx : start + len ≤ 2 ^ 64) (hnm : ∀ nm, nullmask = some nm → len ≤ 8 * nm.length)
    (hptr : len ≤ ptr.length) :
    ∃ col', fill_column_time col ptr nullmask start len = some col' ∧
      ∀ i, i < len →
        (bitmap_valid nullmask i = true →
          ∃ v, ptr[i]? = some v ∧ col'.data[start + i]? = some ⟨v⟩) ∧
        (bitmap_valid nullmask i = false →
          col'.data[start + i]? = col.data[start + i]? ∧
          col'.status[start + i]? = col.status[start + i]?) := by
  have hbody : ∀ i c, fill_time_body ptr nullmask start i c =
      skip_or_set (is_skipped nullmask i) ((ptr[i]?).map t_time.mk)
        ((start + i) % 2 ^ 64) c := by
    intro i c
    unfold fill_time_body skip_or_set
    cases ptr[i]? <;> rfl
  have hval : ∀ i, i < len → ∃ v, (ptr[i]?).map t_time.mk = some v := by
    intro i hi
    have h : i < ptr.length := by omega
    exact ⟨⟨ptr[i]⟩, by simp [List.getElem?_eq_getElem h]⟩
  obtain ⟨col', hrun, _, _, _, hget⟩ :=
    typed_fill_loop (fill_time_body ptr nullmask start) (fun i => (ptr[i]?).map t_time.mk)
      nullmask start len col hbody hdata hstat hidx hnm hval len (Nat.le_refl _)
  refine ⟨col', hrun, ?_⟩
  intro i hi
  have hp : i < ptr.length := by omega
  obtain ⟨hd, hs⟩ := hget (start + i)
  rw [Nat.add_sub_cancel_left] at hd hs
  constructor
  · intro hv
    have hc : start ≤ start + i ∧ start + i < start + len ∧
        bitmap_valid nullmask i = true := ⟨by omega, by omega, hv⟩
    rw [if_pos hc] at hd
    exact ⟨ptr[i], List.getElem?_eq_getElem hp, by rw [hd]; simp [List.getElem?_eq_getElem hp]⟩
  · intro hv
    have hc : ¬ (start ≤ start + i ∧ start + i < start + len ∧
        bitmap_valid nullmask i = true) := by
      rw [hv]
      simp
    rw [if_neg hc] at hd hs
    exact ⟨hd, hs⟩

/-- Instance of C8: three rows from row 1 on with bitmap byte `0b101`, so rows 0 and 2 of
the fill are written and row 1 is skipped. -/
theorem fill_column_time_rows_witness :
    ∃ col', fill_column_time ⟨[⟨0⟩, ⟨11⟩, ⟨12⟩, ⟨13⟩], [t_status.STATUS_INVALID,
        t_status.STATUS_INVALID, t_status.STATUS_CLEAR, t_status.STATUS_INVALID], []⟩
        [100, -200, 300] (some [5]) 1 3 = some col' ∧
      ∀ i, i < 3 →
        (bitmap_valid (some [5]) i = true →
          ∃ v, ([100, -200, 300] : List Int)[i]? = some v ∧
            col'.data[1 + i]? = some ⟨v⟩) ∧
        (bitmap_valid (some [5]) i = false →
          col'.data[1 + i]? = ([⟨0⟩, ⟨11⟩, ⟨12⟩, ⟨13⟩] : List t_time)[1 + i]? ∧
          col'.status[1 + i]? = [t_status.STATUS_INVALID, t_status.STATUS_INVALID,
            t_status.STATUS_CLEAR, t_status.STATUS_INVALID][1 + i]?) :=
  fill_column_time_rows ⟨[⟨0⟩, ⟨11⟩, ⟨12⟩, ⟨13⟩], [t_status.STATUS_INVALID,
        t_status.STATUS_INVALID, t_status.STATUS_CLEAR, t_status.STATUS_INVALID], []⟩
    [100, -200, 300] (some [5]) 1 3 (by decide) (by decide) (by decide)
    (by intro nm h; cases h; decide) (by decide)

theorem fill_column_dict_intern_frame {α : Type} (col col1 : Column α) (dict : List Char)
    (offsets : List Int) (h : fill_column_dict_intern col dict offsets = some col1) :
    col1.data = col.data ∧ col1.status = col.status := by
  unfold fill_column_dict_intern at h
  cases hv : forLoop (intern_body dict offsets) (intern_loop_bound offsets) col.vocab with
  | none => rw [hv] at h; cases h
  | some v =>
    rw [hv] at h
    cases h
    exact ⟨rfl, rfl⟩

/-- Claim C4. When the intern pass returns, `fill_column_dict` on in-range buffers with
non-negative codes leaves cell `start + i` holding exactly `codes[i]` for every valid row
`i < len` (no bitmap, or bit `i` set), and leaves every row the bitmap marks invalid
unwritten: value and status as before the call. -/
theorem fill_column_dict_rows (col col1 : Column Nat) (dict : List Char)
    (offsets : List Int) (ptr : List Int) (nullmask : Option (List Nat)) (start len : Nat)
    (hintern : fill_column_dict_intern col dict offsets = some col1)
    (hdata : start + len ≤ col.data.length) (hstat : start + len ≤ col.status.length)
    (hidx : start + len ≤ 2 ^ 64) (hnm : ∀ nm, nullmask = some nm → len ≤ 8 * nm.length)
    (hptr : len ≤ ptr.length) (hcodes : ∀ c ∈ ptr, 0 ≤ c ∧ c < 2 ^ 31) :
    ∃ col', fill_column_dict col dict offsets ptr nullmask start len = some col' ∧
      ∀ i, i < len →
        (bitmap_valid nullmask i = true →
          ∃ c u, ptr[i]? = some c ∧ col'.data[start + i]? = some u ∧ (u : Int) = c) ∧
        (bitmap_valid nullmask i = false →
          col'.data[start + i]? = col.data[start + i]? ∧
          col'.status[start + i]? = col.status[start + i]?) := by
  obtain ⟨hd1, hs1⟩ := fill_column_dict_intern_frame col col1 dict offsets hintern
  have hbody : ∀ i c, assign_body ptr nullmask start i c =
      skip_or_set (is_skipped nullmask i) ((ptr[i]?).map to_u64)
        ((start + i) % 2 ^ 64) c := by
    intro i c
    unfold assign_body skip_or_set
    cases ptr[i]? <;> rfl
  have hval : ∀ i, i < len → ∃ v, (ptr[i]?).map to_u64 = some v := by
    intro i hi
    have h : i < ptr.length := by omega
    exact ⟨to_u64 ptr[i], by simp [List.getElem?_eq_getElem h]⟩
  obtain ⟨col', hrun, _, _, _, hget⟩ :=
    typed_fill_loop (assign_body ptr nullmask start) (fun i => (ptr[i]?).map to_u64)
      nullmask start len col1 hbody (by rw [hd1]; exact hdata) (by rw [hs1]; exact hstat)
      hidx hnm hval len (Nat.le_refl _)
  refine ⟨col', ?_, ?_⟩
  · simp only [fill_column_dict, hintern, Option.some_bind, fill_column_dict_assign]
    exact hrun
  intro i hi
  have hp : i < ptr.length := by omega
  obtain ⟨hd, hs⟩ := hget (start + i)
  rw [Nat.add_sub_cancel_left, hd1] at hd
  rw [Nat.add_sub_cancel_left, hs1] at hs
  constructor
  · intro hv
    have hc : start ≤ start + i ∧ start + i < start + len ∧
        bitmap_valid nullmask i = true := ⟨by omega, by omega, hv⟩
    rw [if_pos hc] at hd
    obtain ⟨h0, h1⟩ := hcodes ptr[i] (List.getElem_mem _)
    refine ⟨ptr[i], to_u64 ptr[i], List.getElem?_eq_getElem hp, ?_,
      to_u64_of_nonneg _ h0 h1⟩
    rw [hd]
    simp [List.getElem?_eq_getElem hp]
  · intro hv
    have hc : ¬ (start ≤ start + i ∧ start + i < start + len ∧
        bitmap_valid nullmask i = true) := by
      rw [hv]
      simp
    rw [if_neg hc] at hd hs
    exact ⟨hd, hs⟩

/-- Instance of C4: blob "catdog", offsets `[0, 3, 6]`, codes `[1, 0]`, no bitmap, two
rows. -/
theorem fill_column_dict_rows_witness :
    ∃ col', fill_column_dict ⟨[7, 7], [t_status.STATUS_INVALID, t_status.STATUS_INVALID], []⟩
        ['c', 'a', 't', 'd', 'o', 'g'] [0, 3, 6] [1, 0] none 0 2 = some col' ∧
      ∀ i, i < 2 →
        (bitmap_valid none i = true →
          ∃ c u, ([1, 0] : List Int)[i]? = some c ∧ col'.data[0 + i]? = some u ∧
            (u : Int) = c) ∧
        (bitmap_valid none i = false →
          col'.data[0 + i]? = ([7, 7] : List Nat)[0 + i]? ∧
          col'.status[0 + i]? =
            [t_status.STATUS_INVALID, t_status.STATUS_INVALID][0 + i]?) :=
  fill_column_dict_rows ⟨[7, 7], [t_status.STATUS_INVALID, t_status.STATUS_INVALID], []⟩
    ⟨[7, 7], [t_status.STATUS_INVALID, t_status.STATUS_INVALID],
      [['c', 'a', 't'], ['d', 'o', 'g']]⟩
    ['c', 'a', 't', 'd', 'o', 'g'] [0, 3, 6] [1, 0] none 0 2 (by decide) (by decide)
    (by decide) (by decide) (by intro nm h; cases h) (by decide) (by decide)

theorem first_index_append_of_mem {l₁ l₂ : List (List Char)} {s : List Char} (h : s ∈ l₁) :
    first_index (l₁ ++ l₂) s = first_index l₁ s :=
  List.indexOf_append_of_mem h

theorem first_index_append_of_not_mem {l₁ l₂ : List (List Char)} {s : List Char}
    (h : s ∉ l₁) : first_index (l₁ ++ l₂) s = l₁.length + first_index l₂ s :=
  List.indexOf_append_of_not_mem h

theorem first_index_lt_length (l : List (List Char)) (s : List Char) :
    first_index l s < l.length ↔ s ∈ l :=
  List.indexOf_lt_length

theorem get_interned_fst (v : List (List Char)) (s : List Char) :
    (get_interned v s).1 = if s ∈ v then v else v ++ [s] := by
  unfold get_interned
  split <;> rfl

theorem get_interned_snd (v : List (List Char)) (s : List Char) :
    (get_interned v s).2 = first_index (get_interned v s).1 s := by
  unfold get_interned
  split
  · rfl
  · rename_i h
    show v.length = first_index (v ++ [s]) s
    rw [first_index_append_of_not_mem h]
    unfold first_index
    rw [List.indexOf_cons_self]
    rfl

theorem intern_all_snoc (v l : List (List Char)) (x : List Char) :
    intern_all v (l ++ [x]) = (get_interned (intern_all v l) x).1 := by
  simp [intern_all, List.foldl_append]

theorem intern_all_append (v l₁ l₂ : List (List Char)) :
    intern_all v (l₁ ++ l₂) = intern_all (intern_all v l₁) l₂ := by
  simp [intern_all, List.foldl_append]

theorem mem_intern_all (l : List (List Char)) : ∀ s, s ∈ intern_all [] l ↔ s ∈ l := by
  induction l using List.reverseRecOn with
  | nil => intro s; simp [intern_all]
  | append_singleton l x ih =>
    intro s
    rw [intern_all_snoc, get_interned_fst]
    by_cases hx : x ∈ intern_all [] l
    · rw [if_pos hx, ih]
      have hxl := (ih x).1 hx
      simp only [List.mem_append, List.mem_singleton]
      constructor
      · exact Or.inl
      · rintro (h | h)
        · exact h
        · rw [h]; exact hxl
    · rw [if_neg hx]
      simp only [List.mem_append, List.mem_singleton, ih]

theorem nodup_intern_all (l : List (List Char)) : (intern_all [] l).Nodup := by
  induction l using List.reverseRecOn with
  | nil => simp [intern_all]
  | append_singleton l x ih =>
    rw [intern_all_snoc, get_interned_fst]
    by_cases hx : x ∈ intern_all [] l
    · rw [if_pos hx]; exact ih
    · rw [if_neg hx]
      rw [List.nodup_append]
      refine ⟨ih, List.nodup_singleton x, ?_⟩
      intro a ha hb
      rw [List.mem_singleton] at hb
      exact hx (hb ▸ ha)

theorem intern_all_prefix (l v : List (List Char)) : v <+: intern_all v l := by
  induction l generalizing v with
  | nil => exact List.prefix_refl v
  | cons s l ih =>
    have h1 : v <+: (get_interned v s).1 := by
      rw [get_interned_fst]
      split
      · exact List.prefix_refl v
      · exact List.prefix_append v [s]
    exact h1.trans (ih (get_interned v s).1)

theorem intern_all_take_prefix (l : List (List Char)) (k : Nat) :
    intern_all [] (l.take k) <+: intern_all [] l := by
  have h := intern_all_append [] (l.take k) (l.drop k)
  rw [List.take_append_drop] at h
  rw [h]
  exact intern_all_prefix _ _

/-- Codes follow first occurrences: the positions of two strings in the vocabulary built
from `l` compare as their first positions in `l`. -/
theorem intern_all_order (l : List (List Char)) : ∀ s t, s ∈ l → t ∈ l →
    (first_index (intern_all [] l) s < first_index (intern_all [] l) t ↔
      first_index l s < first_index l t) := by
  induction l using List.reverseRecOn with
  | nil => intro s t hs; cases hs
  | append_singleton l x ih =>
    intro s t hs ht
    have hmem := mem_intern_all l
    rw [intern_all_snoc, get_interned_fst]
    by_cases hx : x ∈ intern_all [] l
    · have hxl := (hmem x).1 hx
      have hs1 : s ∈ l := by
        rcases List.mem_append.1 hs with h | h
        · exact h
        · rw [List.mem_singleton.1 h]; exact hxl
      have ht1 : t ∈ l := by
        rcases List.mem_append.1 ht with h | h
        · exact h
        · rw [List.mem_singleton.1 h]; exact hxl
      rw [if_pos hx, first_index_append_of_mem hs1, first_index_append_of_mem ht1]
      exact ih s t hs1 ht1
    · have hxl : x ∉ l := fun h => hx ((hmem x).2 h)
      rw [if_neg hx]
      by_cases hs1 : s ∈ l
      · have hs2 := (hmem s).2 hs1
        rw [first_index_append_of_mem hs1, first_index_append_of_mem hs2]
        by_cases ht1 : t ∈ l
        · have ht2 := (hmem t).2 ht1
          rw [first_index_append_of_mem ht1, first_index_append_of_mem ht2]
          exact ih s t hs1 ht1
        · have ht2 : t ∉ intern_all [] l := fun h => ht1 ((hmem t).1 h)
          rw [first_index_append_of_not_mem ht1, first_index_append_of_not_mem ht2]
          have h1 := (first_index_lt_length _ _).2 hs1
          have h2 := (first_index_lt_length _ _).2 hs2
          constructor <;> intro _ <;> omega
      · have hs2 : s ∉ intern_all [] l := fun h => hs1 ((hmem s).1 h)
        have hsx : s = x := by
          rcases List.mem_append.1 hs with h | h
          · exact absurd h hs1
          · exact List.mem_singleton.1 h
        rw [first_index_append_of_not_mem hs1, first_index_append_of_not_mem hs2]
        by_cases ht1 : t ∈ l
        · have ht2 := (hmem t).2 ht1
          rw [first_index_append_of_mem ht1, first_index_append_of_mem ht2]
          have h1 := (first_index_lt_length _ _).2 ht1
          have h2 := (first_index_lt_length _ _).2 ht2
          constructor <;> intro _ <;> omega
        · have ht2 : t ∉ intern_all [] l := fun h => ht1 ((hmem t).1 h)
          have htx : t = x := by
            rcases List.mem_append.1 ht with h | h
            · exact absurd h ht1
            · exact List.mem_singleton.1 h
          rw [first_index_append_of_not_mem ht1, first_index_append_of_not_mem ht2]
          rw [hsx, htx]
          constructor <;> intro h <;> omega

/-- One iteration of the intern loop on well-formed offsets interns the delimited string
of that index. -/
theorem intern_body_eq (dict : List Char) (offsets : List Int)
    (hsorted : offsets.Sorted (· ≤ ·))
    (hrange : ∀ o ∈ offsets, 0 ≤ o ∧ o < 2 ^ 31 ∧ o ≤ (dict.length : Int))
    (n : Nat) (hn : n + 1 < offsets.length) (v : List (List Char)) :
    ∃ s, (delimited dict offsets)[n]? = some s ∧
      intern_body dict offsets n v = some (get_interned v s).1 := by
  have hn0 : n < offsets.length := by omega
  have ha : offsets[n]? = some offsets[n] := List.getElem?_eq_getElem hn0
  have hb : offsets[n + 1]? = some offsets[n + 1] := List.getElem?_eq_getElem hn
  have hab : offsets[n] ≤ offsets[n + 1] :=
    List.pairwise_iff_getElem.1 hsorted n (n + 1) hn0 hn (Nat.lt_succ_self n)
  obtain ⟨ha0, _, _⟩ := hrange offsets[n] (List.getElem_mem _)
  obtain ⟨_, hb1, hb2⟩ := hrange offsets[n + 1] (List.getElem_mem _)
  refine ⟨(dict.drop offsets[n].toNat).take (offsets[n + 1] - offsets[n]).toNat, ?_, ?_⟩
  · unfold delimited
    rw [List.getElem?_zipWith, List.getElem?_tail, ha, hb]
  · have hw : wrap32 (offsets[n + 1] - offsets[n]) = offsets[n + 1] - offsets[n] := by
      unfold wrap32
      omega
    have hu : to_u64 (offsets[n + 1] - offsets[n]) = (offsets[n + 1] - offsets[n]).toNat := by
      unfold to_u64
      rw [Int.emod_eq_of_lt (by omega) (by omega)]
    have hin : 0 ≤ offsets[n] ∧
        offsets[n].toNat + (offsets[n + 1] - offsets[n]).toNat ≤ dict.length := by
      refine ⟨ha0, ?_⟩
      omega
    unfold intern_body
    rw [hb, ha]
    simp only [hw, hu, assign_substr, if_pos hin]

theorem intern_loop (dict : List Char) (offsets : List Int)
    (hsorted : offsets.Sorted (· ≤ ·))
    (hrange : ∀ o ∈ offsets, 0 ≤ o ∧ o < 2 ^ 31 ∧ o ≤ (dict.length : Int))
    (v : List (List Char)) :
    ∀ n, n + 1 ≤ offsets.length →
      forLoop (intern_body dict offsets) n v =
        some (intern_all v ((delimited dict offsets).take n)) := by
  intro n
  induction n with
  | zero => intro _; rfl
  | succ n ih =>
    intro hn
    obtain ⟨s, hs, hbody⟩ := intern_body_eq dict offsets hsorted hrange n (by omega)
      (intern_all v ((delimited dict offsets).take n))
    simp only [forLoop, ih (by omega), Option.some_bind, hbody]
    rw [List.take_succ, hs, intern_all_append]
    rfl

theorem delimited_length (dict : List Char) (offsets : List Int) :
    (delimited dict offsets).length = offsets.length - 1 := by
  unfold delimited
  rw [List.length_zipWith, List.length_tail]
  omega

theorem intern_loop_bound_eq (offsets : List Int) (hne : offsets ≠ [])
    (hsize : offsets.length < 2 ^ 64) : intern_loop_bound offsets = offsets.length - 1 := by
  have hpos : 0 < offsets.length := List.length_pos.2 hne
  unfold intern_loop_bound
  omega

theorem assign_loop_vocab (ptr : List Int) (nullmask : Option (List Nat)) (start : Nat) :
    ∀ n (c c' : Column Nat), forLoop (assign_body ptr nullmask start) n c = some c' →
      c'.vocab = c.vocab := by
  intro n
  induction n with
  | zero =>
    intro c c' h
    cases h
    rfl
  | succ n ih =>
    intro c c' h
    have hstep : forLoop (assign_body ptr nullmask start) (n + 1) c =
        (forLoop (assign_body ptr nullmask start) n c).bind
          (assign_body ptr nullmask start n) := rfl
    rw [hstep] at h
    cases hrun : forLoop (assign_body ptr nullmask start) n c with
    | none => rw [hrun] at h; cases h
    | some c1 =>
      rw [hrun] at h
      have hc1 := ih c c1 hrun
      change assign_body ptr nullmask start n c1 = some c' at h
      unfold assign_body at h
      cases hsk : is_skipped nullmask n with
      | none => rw [hsk] at h; cases h
      | some b =>
        rw [hsk] at h
        cases b with
        | true =>
          cases h
          exact hc1
        | false =>
          cases hp : ptr[n]? with
          | none => rw [hp] at h; cases h
          | some code =>
            rw [hp] at h
            simp only [Column.set_nth] at h
            split at h
            · cases h
              exact hc1
            · cases h

/-- Claim C3. On a column with an empty vocabulary and a well-formed offsets array
(non-empty, non-decreasing, within the blob), the intern pass of `fill_column_dict`
returns and leaves a vocabulary that holds each delimited string exactly once, with
codes (positions `0, 1, 2, ...`) in order of first occurrence; the code `get_interned`
returns at every iteration, first occurrence or repeat, is the code of that string in
the final vocabulary; every code below the vocabulary size is in use; and this is the
vocabulary of the column `fill_column_dict` returns. -/
theorem fill_column_dict_intern_vocab (col : Column Nat) (dict : List Char)
    (offsets : List Int) (hne : offsets ≠ []) (hsize : offsets.length < 2 ^ 64)
    (hsorted : offsets.Sorted (· ≤ ·))
    (hrange : ∀ o ∈ offsets, 0 ≤ o ∧ o < 2 ^ 31 ∧ o ≤ (dict.length : Int))
    (hempty : col.vocab = []) :
    ∃ col1, fill_column_dict_intern col dict offsets = some col1 ∧
      col1.vocab.Nodup ∧
      (∀ s, s ∈ col1.vocab ↔ s ∈ delimited dict offsets) ∧
      (∀ k, k < get_vlenidx col1.vocab →
        ∃ s, s ∈ delimited dict offsets ∧ first_index col1.vocab s = k) ∧
      (∀ s t, s ∈ delimited dict offsets → t ∈ delimited dict offsets →
        (first_index col1.vocab s < first_index col1.vocab t ↔
          first_index (delimited dict offsets) s < first_index (delimited dict offsets) t)) ∧
      (∀ i s, (delimited dict offsets)[i]? = some s →
        ∃ v, forLoop (intern_body dict offsets) i col.vocab = some v ∧
          (get_interned v s).2 = first_index col1.vocab s) ∧
      (∀ ptr nullmask start len col',
        fill_column_dict col dict offsets ptr nullmask start len = some col' →
          col'.vocab = col1.vocab) := by
  have hlen := delimited_length dict offsets
  have hbound := intern_loop_bound_eq offsets hne hsize
  have hpos : 0 < offsets.length := List.length_pos.2 hne
  have hrun := intern_loop dict offsets hsorted hrange [] (offsets.length - 1) (by omega)
  have hall : (delimited dict offsets).take (offsets.length - 1) = delimited dict offsets := by
    rw [← hlen]
    exact List.take_length _
  rw [hall] at hrun
  have hpass : fill_column_dict_intern col dict offsets =
      some ⟨col.data, col.status, intern_all [] (delimited dict offsets)⟩ := by
    simp only [fill_column_dict_intern, hbound, hempty, hrun, Option.map_some']
  refine ⟨⟨col.data, col.status, intern_all [] (delimited dict offsets)⟩, hpass, ?_, ?_, ?_,
    ?_, ?_, ?_⟩
  · exact nodup_intern_all _
  · exact mem_intern_all _
  · intro k hk
    have hk1 : k < (intern_all [] (delimited dict offsets)).length := hk
    exact ⟨(intern_all [] (delimited dict offsets))[k],
      (mem_intern_all _ _).1 (List.getElem_mem _),
      List.indexOf_getElem (nodup_intern_all _) k hk1⟩
  · exact intern_all_order _
  rotate_left
  · intro ptr nullmask start len col' hfill
    simp only [fill_column_dict, hpass, Option.some_bind, fill_column_dict_assign] at hfill
    exact assign_loop_vocab ptr nullmask start len _ col' hfill
  · intro i s hs
    have hi : i < (delimited dict offsets).length := by
      by_contra hge
      rw [List.getElem?_eq_none (by omega)] at hs
      cases hs
    refine ⟨intern_all [] ((delimited dict offsets).take i), ?_, ?_⟩
    · rw [hempty]
      exact intern_loop dict offsets hsorted hrange [] i (by omega)
    · rw [get_interned_snd]
      have hpre := intern_all_take_prefix (delimited dict offsets) (i + 1)
      rw [List.take_succ, hs, intern_all_append] at hpre
      have hone : intern_all (intern_all [] ((delimited dict offsets).take i)) [s]
          = (get_interned (intern_all [] ((delimited dict offsets).take i)) s).1 := rfl
      simp only [Option.toList] at hpre
      rw [hone] at hpre
      obtain ⟨rest, hrest⟩ := hpre
      have hmem : s ∈ (get_interned (intern_all [] ((delimited dict offsets).take i)) s).1 := by
        rw [get_interned_fst]
        split
        · assumption
        · simp
      show _ = first_index (intern_all [] (delimited dict offsets)) s
      rw [← hrest, first_index_append_of_mem hmem]

/-- Instance of C3: blob "catdog" with offsets `[0, 3, 6]` on an empty vocabulary gives
cat -> 0, dog -> 1, and `get_col_vocab_strings` returns `["cat", "dog"]`. -/
theorem fill_column_dict_intern_vocab_witness :
    (∃ col1, fill_column_dict_intern
        (⟨[7, 7], [t_status.STATUS_INVALID, t_status.STATUS_INVALID], []⟩ : Column Nat)
        ['c', 'a', 't', 'd', 'o', 'g'] [0, 3, 6] = some col1 ∧
      col1.vocab.Nodup ∧
      (∀ s, s ∈ col1.vocab ↔ s ∈ delimited ['c', 'a', 't', 'd', 'o', 'g'] [0, 3, 6]) ∧
      (∀ k, k < get_vlenidx col1.vocab →
        ∃ s, s ∈ delimited ['c', 'a', 't', 'd', 'o', 'g'] [0, 3, 6] ∧
          first_index col1.vocab s = k) ∧
      (∀ s t, s ∈ delimited ['c', 'a', 't', 'd', 'o', 'g'] [0, 3, 6] →
        t ∈ delimited ['c', 'a', 't', 'd', 'o', 'g'] [0, 3, 6] →
        (first_index col1.vocab s < first_index col1.vocab t ↔
          first_index (delimited ['c', 'a', 't', 'd', 'o', 'g'] [0, 3, 6]) s <
            first_index (delimited ['c', 'a', 't', 'd', 'o', 'g'] [0, 3, 6]) t)) ∧
      (∀ i s, (delimited ['c', 'a', 't', 'd', 'o', 'g'] [0, 3, 6])[i]? = some s →
        ∃ v, forLoop (intern_body ['c', 'a', 't', 'd', 'o', 'g'] [0, 3, 6]) i [] = some v ∧
          (get_interned v s).2 = first_index col1.vocab s) ∧
      (∀ ptr nullmask start len col',
        fill_column_dict
            ⟨[7, 7], [t_status.STATUS_INVALID, t_status.STATUS_INVALID], []⟩
            ['c', 'a', 't', 'd', 'o', 'g'] [0, 3, 6] ptr nullmask start len = some col' →
          col'.vocab = col1.vocab)) ∧
    fill_column_dict_intern
        (⟨[7, 7], [t_status.STATUS_INVALID, t_status.STATUS_INVALID], []⟩ : Column Nat)
        ['c', 'a', 't', 'd', 'o', 'g'] [0, 3, 6] =
      some ⟨[7, 7], [t_status.STATUS_INVALID, t_status.STATUS_INVALID],
        [['c', 'a', 't'], ['d', 'o', 'g']]⟩ ∧
    (fill_column_dict_intern
        (⟨[7, 7], [t_status.STATUS_INVALID, t_status.STATUS_INVALID], []⟩ : Column Nat)
        ['c', 'a', 't', 'd', 'o', 'g'] [0, 3, 6]).bind get_col_vocab_strings =
      some ["cat", "dog"] :=
  ⟨fill_column_dict_intern_vocab
      (⟨[7, 7], [t_status.STATUS_INVALID, t_status.STATUS_INVALID], []⟩ : Column Nat)
      ['c', 'a', 't', 'd', 'o', 'g'] [0, 3, 6] (by decide) (by decide) (by decide)
      (by decide) rfl,
    by decide, by decide⟩

/-! ## Table assembly: lemmas -/

theorem has_column_iff {α : Type} (dt : t_data_table α) (name : String) :
    dt.get_schema.has_column name = true ↔ ∃ e ∈ dt.columns, e.1 = name := by
  simp [t_schema.has_column, t_data_table.get_schema, List.any_map]

theorem has_column_false_iff {α : Type} (dt : t_data_table α) (name : String) :
    dt.get_schema.has_column name = false ↔ ∀ e ∈ dt.columns, e.1 ≠ name := by
  rw [← Bool.not_eq_true, has_column_iff]
  constructor
  · intro h e he hn
    exact h ⟨e, he, hn⟩
  · rintro h ⟨e, he, hn⟩
    exact h e he hn

theorem find_name_none {α : Type} (l : List (String × t_dtype × Column α)) (name : String)
    (h : ∀ e ∈ l, e.1 ≠ name) : l.find? (fun e => e.1 == name) = none := by
  rw [List.find?_eq_none]
  intro e he
  simpa using h e he

theorem find_name_some {α : Type} (l : List (String × t_dtype × Column α)) (name : String)
    (h : ∃ e ∈ l, e.1 = name) : ∃ e, l.find? (fun e => e.1 == name) = some e := by
  cases hf : l.find? (fun e => e.1 == name) with
  | some e => exact ⟨e, rfl⟩
  | none =>
    rw [List.find?_eq_none] at hf
    obtain ⟨e, he, hn⟩ := h
    exact absurd (by simpa using hn) (hf e he)

/-- The fill loop of the synthesized key column: after `n` iterations the first `n`
cells hold their own row numbers. -/
theorem pkey_loop {α : Type} [NatCast α] (c0 : Column α) (size : Nat)
    (h1 : c0.data.length = size) (h2 : c0.status.length = size) :
    ∀ n, n ≤ size → ∃ c, forLoop (fun i pkey => pkey.set_nth i ((i : Nat) : α)) n c0 = some c ∧
      c.data.length = size ∧ c.status.length = size ∧
      ∀ j, j < n → c.data[j]? = some ((j : Nat) : α) := by
  intro n
  induction n with
  | zero =>
    intro _
    exact ⟨c0, rfl, h1, h2, fun j hj => absurd hj (Nat.not_lt_zero j)⟩
  | succ n ih =>
    intro hn
    obtain ⟨c, hrun, hd, hs, hget⟩ := ih (by omega)
    refine ⟨⟨c.data.set n ((n : Nat) : α), c.status.set n t_status.STATUS_VALID, c.vocab⟩,
      ?_, ?_, ?_, ?_⟩
    · simp only [forLoop, hrun, Option.some_bind]
      exact set_nth_eq_some c n _ (by omega) (by omega)
    · simp [hd]
    · simp [hs]
    · intro j hj
      simp only [List.getElem?_set]
      by_cases hjn : n = j
      · subst hjn
        have : n < c.data.length := by omega
        simp [this]
      · rw [if_neg hjn]
        exact hget j (by omega)

theorem pkey_loop_data {α : Type} [NatCast α] (c0 : Column α) (size : Nat)
    (h1 : c0.data.length = size) (h2 : c0.status.length = size) :
    ∃ c, forLoop (fun i pkey => pkey.set_nth i ((i : Nat) : α)) size c0 = some c ∧
      c.data = (List.range size).map (fun i => ((i : Nat) : α)) := by
  obtain ⟨c, hrun, hd, _, hget⟩ := pkey_loop c0 size h1 h2 size (Nat.le_refl _)
  refine ⟨c, hrun, ?_⟩
  apply List.ext_getElem?
  intro j
  by_cases hj : j < size
  · rw [hget j hj, List.getElem?_map, List.getElem?_range hj]
    rfl
  · rw [List.getElem?_eq_none (by omega), List.getElem?_eq_none (by simp; omega)]

/-- What lines 284-293 leave: the input set, followed by a synthesized `psp_pkey` column
when the input had none. -/
theorem derive_pkey_spec {α : Type} [NatCast α] (dt : t_data_table α) :
    ∃ extra pk, derive_pkey dt = some ⟨dt.columns ++ extra, dt.size⟩ ∧
      (∀ e ∈ extra, e.1 = "psp_pkey") ∧
      (⟨dt.columns ++ extra, dt.size⟩ : t_data_table α).get_column "psp_pkey" = some pk ∧
      (dt.get_schema.has_column "psp_pkey" = false →
        pk.data = (List.range dt.size).map (fun i => ((i : Nat) : α))) ∧
      (dt.get_schema.has_column "psp_pkey" = true → dt.get_column "psp_pkey" = some pk) := by
  cases hp : dt.get_schema.has_column "psp_pkey" with
  | true =>
    obtain ⟨e, he⟩ := find_name_some dt.columns "psp_pkey" ((has_column_iff dt _).1 hp)
    have hget : dt.get_column "psp_pkey" = some e.2.2 := by
      simp [t_data_table.get_column, he]
    refine ⟨[], e.2.2, ?_, ?_, ?_, ?_, ?_⟩
    · simp [derive_pkey, hp, hget]
    · intro x hx; cases hx
    · simpa using hget
    · intro h; cases h
    · intro _; exact hget
  | false =>
    have hno := (has_column_false_iff dt _).1 hp
    obtain ⟨pk, hrun, hdata⟩ := pkey_loop_data
      (⟨List.replicate dt.size ((0 : Nat) : α),
        List.replicate dt.size t_status.STATUS_INVALID, []⟩ : Column α) dt.size
      (by simp) (by simp)
    have hmap : dt.columns.map
        (fun e => if e.1 == "psp_pkey" then (e.1, e.2.1, pk) else e) = dt.columns := by
      conv_rhs => rw [← List.map_id dt.columns]
      apply List.map_congr_left
      intro e he
      have := hno e he
      simp [this]
    refine ⟨[("psp_pkey", t_dtype.DTYPE_INT64, pk)], pk, ?_, ?_, ?_, ?_, ?_⟩
    · simp only [derive_pkey, hp, t_data_table.add_column_sptr, hrun, Option.map_some',
        t_data_table.store_column, List.map_append, hmap]
      simp
    · intro x hx
      rw [List.mem_singleton.1 hx]
    · simp [t_data_table.get_column, List.find?_append, find_name_none dt.columns _ hno]
    · intro _; exact hdata
    · intro h; cases h

theorem get_column_eq_some {α : Type} (dt : t_data_table α) (name : String) (c : Column α)
    (h : dt.get_column name = some c) :
    ∃ e, dt.columns.find? (fun e => e.1 == name) = some e ∧ e.2.2 = c ∧ e ∈ dt.columns ∧
      e.1 = name := by
  unfold t_data_table.get_column at h
  cases hf : dt.columns.find? (fun e => e.1 == name) with
  | none => rw [hf] at h; cases h
  | some e =>
    rw [hf] at h
    refine ⟨e, rfl, by simpa using h, List.mem_of_find?_eq_some hf, ?_⟩
    simpa using List.find?_some hf

/-- What `mk_table_from_data_table` assembles: the key columns of the column set handed
to `Table::init`. -/
theorem mk_table_from_data_table_spec {α : Type} [NatCast α] (dt : t_data_table α)
    (index : String) :
    ∃ tbl pk, mk_table_from_data_table dt index = some tbl ∧
      tbl.data.get_column "psp_pkey" = some pk ∧
      (dt.get_schema.has_column "psp_pkey" = false →
        pk.data = (List.range dt.size).map (fun i => ((i : Nat) : α))) ∧
      (dt.get_schema.has_column "psp_pkey" = true → dt.get_column "psp_pkey" = some pk) ∧
      tbl.data.get_schema.has_column "psp_pkey" = true ∧
      tbl.data.get_schema.has_column "psp_okey" = true ∧
      (dt.get_schema.has_column "psp_okey" = false →
        tbl.data.get_column "psp_okey" = some pk) ∧
      tbl.columns = tbl.data.get_schema.columns := by
  obtain ⟨extra, pk, hd, hex, hget, h1, h2⟩ := derive_pkey_spec dt
  obtain ⟨e, hfind, hepk, hemem, hename⟩ := get_column_eq_some _ _ _ hget
  simp only at hfind hemem
  cases ho : dt.get_schema.has_column "psp_okey" with
  | true =>
    have hrun : mk_table_from_data_table dt index =
        some ⟨(⟨dt.columns ++ extra, dt.size⟩ : t_data_table α).get_schema.columns,
          (⟨dt.columns ++ extra, dt.size⟩ : t_data_table α).get_schema.types,
          dt.size, index, ⟨dt.columns ++ extra, dt.size⟩⟩ := by
      simp only [mk_table_from_data_table, hd, Option.map_some', derive_okey, ho]
      rfl
    refine ⟨_, pk, hrun, ?_, h1, h2, ?_, ?_, ?_, rfl⟩
    · exact hget
    · exact (has_column_iff _ _).2 ⟨e, hemem, hename⟩
    · obtain ⟨x, hx, hxn⟩ := (has_column_iff dt _).1 ho
      exact (has_column_iff _ _).2 ⟨x, List.mem_append_left _ hx, hxn⟩
    · intro h; cases h
  | false =>
    have hno := (has_column_false_iff dt _).1 ho
    have hno1 : ∀ x ∈ dt.columns ++ extra, x.1 ≠ "psp_okey" := by
      intro x hx
      rcases List.mem_append.1 hx with h | h
      · exact hno x h
      · rw [hex x h]; decide
    have hrun : mk_table_from_data_table dt index =
        some ⟨(⟨dt.columns ++ extra ++ [("psp_okey", e.2.1, e.2.2)], dt.size⟩ :
            t_data_table α).get_schema.columns,
          (⟨dt.columns ++ extra ++ [("psp_okey", e.2.1, e.2.2)], dt.size⟩ :
            t_data_table α).get_schema.types,
          dt.size, index, ⟨dt.columns ++ extra ++ [("psp_okey", e.2.1, e.2.2)], dt.size⟩⟩ := by
      simp only [mk_table_from_data_table, hd, Option.map_some', derive_okey, ho,
        t_data_table.clone_column, hfind]
      rfl
    refine ⟨_, pk, hrun, ?_, h1, h2, ?_, ?_, ?_, rfl⟩
    · show ((dt.columns ++ extra ++ [("psp_okey", e.2.1, e.2.2)]).find?
          (fun e => e.1 == "psp_pkey")).map (fun e => e.2.2) = some pk
      rw [List.find?_append, hfind]
      show some e.2.2 = some pk
      rw [hepk]
    · exact (has_column_iff _ _).2 ⟨e, List.mem_append_left _ hemem, hename⟩
    · exact (has_column_iff _ _).2 ⟨("psp_okey", e.2.1, e.2.2), by simp, rfl⟩
    · intro _
      have hone : [("psp_okey", e.2.1, e.2.2)].find? (fun e => e.1 == "psp_okey") =
          some ("psp_okey", e.2.1, e.2.2) := by
        simp
      show ((dt.columns ++ extra ++ [("psp_okey", e.2.1, e.2.2)]).find?
          (fun e => e.1 == "psp_okey")).map (fun e => e.2.2) = some pk
      rw [List.find?_append, find_name_none _ _ hno1, hone]
      show some e.2.2 = some pk
      rw [hepk]

/-- Claim C5. For every column set, `mk_table_from_data_table` returns a table whose
assembled column set has a `psp_pkey` column equal to `[0, 1, ..., size - 1]` when the
input had no `psp_pkey` column, and equal to the input's `psp_pkey` column, cell for
cell, when the input already had one. -/
theorem mk_table_from_data_table_pkey {α : Type} [NatCast α] (dt : t_data_table α)
    (index : String) :
    ∃ tbl pkey, mk_table_from_data_table dt index = some tbl ∧
      tbl.data.get_column "psp_pkey" = some pkey ∧
      (dt.get_schema.has_column "psp_pkey" = false →
        pkey.data = (List.range dt.num_rows).map (fun i => ((i : Nat) : α))) ∧
      (dt.get_schema.has_column "psp_pkey" = true →
        dt.get_column "psp_pkey" = some pkey) := by
  obtain ⟨tbl, pk, hrun, hget, h1, h2, _⟩ := mk_table_from_data_table_spec dt index
  exact ⟨tbl, pk, hrun, hget, h1, h2⟩

/-- Claim C6. For every column set, the column set `mk_table_from_data_table` assembles
contains both a `psp_pkey` and a `psp_okey` column, and when the input had no `psp_okey`
column the new `psp_okey` column equals the (given or synthesized) `psp_pkey` column
value for value. -/
theorem mk_table_from_data_table_keys {α : Type} [NatCast α] (dt : t_data_table α)
    (index : String) :
    ∃ tbl, mk_table_from_data_table dt index = some tbl ∧
      tbl.data.get_schema.has_column "psp_pkey" = true ∧
      tbl.data.get_schema.has_column "psp_okey" = true ∧
      "psp_pkey" ∈ tbl.columns ∧ "psp_okey" ∈ tbl.columns ∧
      (dt.get_schema.has_column "psp_okey" = false →
        ∃ pkey okey, tbl.data.get_column "psp_pkey" = some pkey ∧
          tbl.data.get_column "psp_okey" = some okey ∧ okey.data = pkey.data) := by
  obtain ⟨tbl, pk, hrun, hget, _, _, hp, ho, hclone, hcols⟩ :=
    mk_table_from_data_table_spec dt index
  have hmem : ∀ name, tbl.data.get_schema.has_column name = true → name ∈ tbl.columns := by
    intro name h
    rw [hcols]
    obtain ⟨e, he, hn⟩ := (has_column_iff _ _).1 h
    simp only [t_data_table.get_schema, List.mem_map]
    exact ⟨e, he, hn⟩
  exact ⟨tbl, hrun, hp, ho, hmem _ hp, hmem _ ho,
    fun h => ⟨pk, pk, hget, hclone h, rfl⟩⟩

/-- The scenario of the spec: a column set with only `a = [0, 1, 2]` is assembled into
the columns `a`, `psp_pkey = [0, 1, 2]`, `psp_okey = [0, 1, 2]`. -/
theorem mk_table_from_data_table_scenario :
    (mk_table_from_data_table (⟨[("a", t_dtype.DTYPE_INT64, ⟨[0, 1, 2],
        [t_status.STATUS_VALID, t_status.STATUS_VALID, t_status.STATUS_VALID], []⟩)], 3⟩ :
        t_data_table Int) "").map
      (fun tbl => (tbl.columns, (tbl.data.get_column "psp_pkey").map (fun c => c.data),
        (tbl.data.get_column "psp_okey").map (fun c => c.data))) =
    some (["a", "psp_pkey", "psp_okey"], some [0, 1, 2], some [0, 1, 2]) := by
  decide

/-! ## Behaviour at the inputs where the code departs from the specification -/

/-- Where `fill_column_memcpy` puts the copied bytes: from byte offset `start` of the
storage on, whatever the element size. -/
theorem fill_column_memcpy_data (col col' : Column Nat) (ptr : List Nat)
    (nullmask : Option (List Nat)) (start len size : Nat)
    (h : fill_column_memcpy col ptr nullmask start len size = some col') :
    col'.data = col.data.take start ++ ptr.take ((len * size) % 2 ^ 64) ++
      col.data.drop (start + (len * size) % 2 ^ 64) := by
  unfold fill_column_memcpy at h
  cases hm : memcpy col.data (get_nth_offset 1 start) ptr ((len * size) % 2 ^ 64) with
  | none => rw [hm] at h; cases h
  | some data =>
    rw [hm] at h
    have hdata : data = col.data.take start ++ ptr.take ((len * size) % 2 ^ 64) ++
        col.data.drop (start + (len * size) % 2 ^ 64) := by
      unfold memcpy at hm
      simp only [get_nth_offset, Nat.mul_one] at hm
      split at hm
      · cases hm; rfl
      · cases hm
    cases nullmask with
    | none =>
      simp only at h
      cases hs : memset col.status start t_status.STATUS_VALID len with
      | none => rw [hs] at h; cases h
      | some st => rw [hs] at h; cases h; exact hdata
    | some nm =>
      simp only at h
      cases hs : forLoop (fill_status_body nm start) len col.status with
      | none => rw [hs] at h; cases h
      | some st => rw [hs] at h; cases h; exact hdata

/-- Where `fill_column_memcpy` puts the `i`-th source element: on the `size` bytes from
byte offset `start + i * size` on. The cell of row `start + i` starts at byte offset
`(start + i) * size`, which is the same place only when `start = 0` or `size = 1`. -/
theorem fill_column_memcpy_element (col col' : Column Nat) (ptr : List Nat)
    (nullmask : Option (List Nat)) (start len size : Nat)
    (h : fill_column_memcpy col ptr nullmask start len size = some col')
    (hfit : len * size < 2 ^ 64) (i : Nat) (hi : i < len) :
    (col'.data.drop (start + i * size)).take size = (ptr.drop (i * size)).take size := by
  have hdata := fill_column_memcpy_data col col' ptr nullmask start len size h
  rw [Nat.mod_eq_of_lt hfit] at hdata
  have hb : len * size ≤ ptr.length ∧ start + len * size ≤ col.data.length := by
    unfold fill_column_memcpy memcpy at h
    simp only [get_nth_offset, Nat.mul_one, Nat.mod_eq_of_lt hfit] at h
    by_contra hc
    rw [if_neg hc] at h
    cases h
  have hle : i * size + size ≤ len * size := by
    have : (i + 1) * size ≤ len * size := Nat.mul_le_mul_right size hi
    rw [Nat.add_mul, Nat.one_mul] at this
    exact this
  apply List.ext_getElem?
  intro k
  rw [List.getElem?_take, List.getElem?_take]
  by_cases hk : k < size
  · rw [if_pos hk, if_pos hk, List.getElem?_drop, List.getElem?_drop, hdata,
      List.append_assoc]
    have hlen : (col.data.take start).length = start := by
      rw [List.length_take]
      omega
    rw [List.getElem?_append_right (by omega), hlen]
    have hidx : start + i * size + k - start = i * size + k := by omega
    rw [hidx, List.getElem?_append_left (by rw [List.length_take]; omega),
      List.getElem?_take, if_pos (by omega)]
  · rw [if_neg hk, if_neg hk]

/-- Claim C2 at a failing input: a column of three 2-byte rows, one source element
`[170, 187]`, `start = 1`, `len = 1`, `size = 2`. The copy lands on bytes 1 and 2, so
the cell of row 1 (bytes 2 and 3) is `[187, 0]` and not the source element, and row 0
is damaged, while the status written is that of row 1. -/
theorem fill_column_memcpy_row_offset :
    fill_column_memcpy ⟨[0, 0, 0, 0, 0, 0], [t_status.STATUS_CLEAR, t_status.STATUS_CLEAR,
        t_status.STATUS_CLEAR], []⟩ [170, 187] none 1 1 2 =
      some ⟨[0, 170, 187, 0, 0, 0], [t_status.STATUS_CLEAR, t_status.STATUS_VALID,
        t_status.STATUS_CLEAR], []⟩ ∧
    get_nth_bytes ⟨[0, 170, 187, 0, 0, 0], [t_status.STATUS_CLEAR, t_status.STATUS_VALID,
        t_status.STATUS_CLEAR], []⟩ 2 1 = [187, 0] ∧
    get_nth_bytes ⟨[0, 170, 187, 0, 0, 0], [t_status.STATUS_CLEAR, t_status.STATUS_VALID,
        t_status.STATUS_CLEAR], []⟩ 2 1 ≠ [170, 187] ∧
    get_nth_bytes ⟨[0, 170, 187, 0, 0, 0], [t_status.STATUS_CLEAR, t_status.STATUS_VALID,
        t_status.STATUS_CLEAR], []⟩ 2 0 = [0, 170] := by
  decide

theorem forLoop_fail_first {σ : Type} (body : Nat → σ → Option σ) (s : σ)
    (h : body 0 s = none) : ∀ n, forLoop body (n + 1) s = none := by
  intro n
  induction n with
  | zero => simp [forLoop, h]
  | succ n ih =>
    show (forLoop body (n + 1) s).bind (body (n + 1)) = none
    rw [ih]
    rfl

/-- Claim C9 at a failing input: for the empty offsets slice the bound
`offsets.size() - 1` wraps to `2 ^ 64 - 1`, so the loop is entered and its first
iteration reads `offsets[1]` and `offsets[0]` outside the slice. -/
theorem intern_loop_empty_offsets (col : Column Nat) (dict : List Char) :
    intern_loop_bound [] = 2 ^ 64 - 1 ∧
    ([] : List Int)[0 + 1]? = none ∧
    intern_body dict [] 0 col.vocab = none ∧
    fill_column_dict_intern col dict [] = none := by
  have hb : intern_loop_bound [] = (2 ^ 64 - 2) + 1 := by
    unfold intern_loop_bound
    simp
  refine ⟨by rw [hb]; norm_num, rfl, rfl, ?_⟩
  unfold fill_column_dict_intern
  rw [hb, forLoop_fail_first (intern_body dict []) col.vocab rfl]
  rfl

/-- Where the 32-bit product is exact: day counts of magnitude at most 24855. -/
theorem days_to_seconds_exact (d : Int) (h1 : -24855 ≤ d) (h2 : d ≤ 24855) :
    days_to_seconds d = d * 86400 := by
  unfold days_to_seconds wrap32
  omega

/-- What the 32-bit product is in general: the exact product reduced to the range of
`int`, that is modulo `2 ^ 32`. -/
theorem days_to_seconds_wrap (d : Int) : days_to_seconds d = wrap32 (d * 86400) := by
  unfold days_to_seconds wrap32
  omega

/-- Claim C10 at a failing input: for the day count 24856 (20 January 2038) the `int`
product `ptr[i] * 24 * 60 * 60` is `-2147408896`, not `24856 * 86400 = 2147558400`. -/
theorem days_to_seconds_overflow :
    days_to_seconds 24856 = -2147408896 ∧
    (24856 : Int) * 86400 = 2147558400 ∧
    days_to_seconds 24856 ≠ 24856 * 86400 ∧
    days_to_seconds 24856 = 24856 * 86400 - 2 ^ 32 := by
  decide

/-- Claim C7 at a failing input: with the zone pinned to UTC, the day count 0
(1 January 1970) makes `fill_column_date` store `t_date(70, 0, 1)`, the `tm_year`
(years since 1900) and `tm_mon` (months since January) fields as they are. -/
theorem fill_column_date_epoch :
    fill_column_date localtime_utc ⟨[⟨0, 0, 0⟩], [t_status.STATUS_INVALID], []⟩ [0] none 0 1 =
      some ⟨[⟨70, 0, 1⟩], [t_status.STATUS_VALID], []⟩ ∧
    civil_from_days 0 = (1970, 1, 1) ∧
    (⟨70, 0, 1⟩ : t_date).year ≠ 1970 ∧
    (⟨70, 0, 1⟩ : t_date) ≠ ⟨1970, 1, 1⟩ := by
  decide

end ffi
